import Mathlib

/-!
Shallow embedding of `src/typein_tokenizer/tokenizer.py` (retro_type-in_tools),
the tokenizer that converts Commodore BASIC type-in source text into the
tokenized binary image a Commodore 8-bit machine loads.

Conventions of the embedding:
* Python strings are `String`/`List Char`; bytes are `Nat` (the code never
  wraps: `to_bytes(2, 'little')` raises `OverflowError` out of range, which
  we model with an explicit error).
* Fallible code (uncaught `ValueError`, `KeyError`, `NameError`,
  `IndexError`, `OverflowError`, and the `(None, line)` loose-brace return
  of `ahoy_lines_list`) is modelled with `Except Err`.
* In string literals, `\x7b` and `\x7d` denote the brace characters
  `{` and `}`, exactly as they appear in the Python source.
-/

/-- Failure modes of the pipeline, mirroring the Python exceptions and the
`(None, line)` error return of `ahoy_lines_list`. -/
inductive Err where
  /-- `ahoy_lines_list` returned `(None, line)`: a loose brace was found;
  the offending source line is carried verbatim. -/
  | looseBrace (line : String) : Err
  /-- `KeyError` from `AHOY_TO_PETCAT[item.upper()]` on an unknown mnemonic. -/
  | keyError : Err
  /-- `ValueError` from `int('')` in `split_line_num` when a line has no
  leading digits. -/
  | valueError : Err
  /-- `NameError` from referencing the global `TOKENS` when no BASIC
  version configured it (only version '2' assigns `TOKENS`). -/
  | nameError : Err
  /-- `IndexError` from an out-of-range list subscript
  (`out_list[561]`, or `ln[0]` on an empty string). -/
  | indexError : Err
  /-- `OverflowError` from `int.to_bytes(2, 'little')` on a value ≥ 2^16. -/
  | overflowError : Err
  deriving DecidableEq, Repr

deriving instance DecidableEq for Except

/-- Dictionary for special character conversion from ahoy to petcat
(`AHOY_TO_PETCAT` in the source; `\x7b` = left brace, `\x7d` = right brace). -/
def AHOY_TO_PETCAT : List (String × String) := [
  ("\x7bSC\x7d", "\x7bclr\x7d"),
  ("\x7bHM\x7d", "\x7bhome\x7d"),
  ("\x7bCU\x7d", "\x7bup\x7d"),
  ("\x7bCD\x7d", "\x7bdown\x7d"),
  ("\x7bCL\x7d", "\x7bleft\x7d"),
  ("\x7bCR\x7d", "\x7brght\x7d"),
  ("\x7bSS\x7d", "\x7b$a0\x7d"),
  ("\x7bIN\x7d", "\x7binst\x7d"),
  ("\x7bRV\x7d", "\x7brvon\x7d"),
  ("\x7bRO\x7d", "\x7brvof\x7d"),
  ("\x7bBK\x7d", "\x7bblk\x7d"),
  ("\x7bWH\x7d", "\x7bwht\x7d"),
  ("\x7bRD\x7d", "\x7bred\x7d"),
  ("\x7bCY\x7d", "\x7bcyn\x7d"),
  ("\x7bPU\x7d", "\x7bpur\x7d"),
  ("\x7bGN\x7d", "\x7bgrn\x7d"),
  ("\x7bBL\x7d", "\x7bblu\x7d"),
  ("\x7bYL\x7d", "\x7byel\x7d"),
  ("\x7bOR\x7d", "\x7borng\x7d"),
  ("\x7bBR\x7d", "\x7bbrn\x7d"),
  ("\x7bLR\x7d", "\x7blred\x7d"),
  ("\x7bG1\x7d", "\x7bgry1\x7d"),
  ("\x7bG2\x7d", "\x7bgry2\x7d"),
  ("\x7bLG\x7d", "\x7blgrn\x7d"),
  ("\x7bLB\x7d", "\x7blblu\x7d"),
  ("\x7bG3\x7d", "\x7bgry3\x7d"),
  ("\x7bF1\x7d", "\x7bf1\x7d"),
  ("\x7bF2\x7d", "\x7bf2\x7d"),
  ("\x7bF3\x7d", "\x7bf3\x7d"),
  ("\x7bF4\x7d", "\x7bf4\x7d"),
  ("\x7bF5\x7d", "\x7bf5\x7d"),
  ("\x7bF6\x7d", "\x7bf6\x7d"),
  ("\x7bF7\x7d", "\x7bf7\x7d"),
  ("\x7bF8\x7d", "\x7bf8\x7d")]

/-- Core Commodore BASIC tokens (`CORE_TOKENS` in the source), in source
order; matched in listed order by `scan`. -/
def CORE_TOKENS : List (String × Nat) := [
  ("end", 128), ("for", 129), ("next", 130), ("data", 131),
  ("input#", 132), ("input", 133), ("dim", 134), ("read", 135),
  ("let", 136), ("goto", 137), ("run", 138), ("if", 139),
  ("restore", 140), ("gosub", 141), ("return", 142), ("rem", 143),
  ("stop", 144), ("on", 145), ("wait", 146), ("load", 147),
  ("save", 148), ("verify", 149), ("def", 150), ("poke", 151),
  ("print#", 152), ("print", 153), ("cont", 154), ("list", 155),
  ("clr", 156), ("cmd", 157), ("sys", 158), ("open", 159),
  ("close", 160), ("get", 161), ("new", 162), ("tab(", 163),
  ("to", 164), ("fn", 165), ("spc(", 166), ("then", 167),
  ("not", 168), ("step", 169), ("+", 170), ("-", 171),
  ("*", 172), ("/", 173), ("^", 174), ("and", 175),
  ("or", 176), (">", 177), ("=", 178), ("<", 179),
  ("sgn", 180), ("int", 181), ("abs", 182), ("usr", 183),
  ("fre", 184), ("pos", 185), ("sqr", 186), ("rnd", 187),
  ("log", 188), ("exp", 189), ("cos", 190), ("sin", 191),
  ("tan", 192), ("atn", 193), ("peek", 194), ("len", 195),
  ("str$", 196), ("val", 197), ("asc", 198), ("chr$", 199),
  ("left$", 200), ("right$", 201), ("mid$", 202), ("go", 203)]

/-- Tokens for special character designations used by petcat
(`PETCAT_TOKENS` in the source), in source order. -/
def PETCAT_TOKENS : List (String × Nat) := [
  ("\x7bclr\x7d", 147), ("\x7bhome\x7d", 19), ("\x7bup\x7d", 145),
  ("\x7bdown\x7d", 17), ("\x7bleft\x7d", 157), ("\x7brght\x7d", 29),
  ("\x7b$a0\x7d", 160), ("\x7binst\x7d", 148), ("\x7brvon\x7d", 18),
  ("\x7brvof\x7d", 146), ("\x7bblk\x7d", 144), ("\x7bwht\x7d", 5),
  ("\x7bred\x7d", 28), ("\x7bcyn\x7d", 159), ("\x7bpur\x7d", 156),
  ("\x7bgrn\x7d", 30), ("\x7bblu\x7d", 31), ("\x7byel\x7d", 158),
  ("\x7borng\x7d", 129), ("\x7bbrn\x7d", 149), ("\x7blred\x7d", 150),
  ("\x7bgry1\x7d", 151), ("\x7bgry2\x7d", 152), ("\x7blgrn\x7d", 153),
  ("\x7blblu\x7d", 154), ("\x7bgry3\x7d", 155), ("\x7bf1\x7d", 133),
  ("\x7bf2\x7d", 134), ("\x7bf3\x7d", 135), ("\x7bf4\x7d", 136),
  ("\x7bf5\x7d", 137), ("\x7bf6\x7d", 138), ("\x7bf7\x7d", 139),
  ("\x7bf8\x7d", 140)]

/-- Python's `\w` character class restricted to ASCII (the inputs are
lowercased ASCII program text): letters, digits and underscore. -/
def isWordChar (c : Char) : Bool := c.isAlphanum || c == '_'

/-- One left-to-right pass of `re.split` and `re.findall` over the
ahoy-placeholder pattern (a left brace, exactly two word characters, a
right brace — `\x7b\w\x7b2\x7d\x7d` in the source): returns the leading
literal segment and, for each matched placeholder in order, the pair
(placeholder, following literal segment).  So `re.split` yields
`seg0 :: pairs.map snd` and `re.findall` yields `pairs.map fst`.  On a
failed match the scan advances one character, as `re` does. -/
def ahoySplit : List Char → List Char × List (List Char × List Char)
  | '{' :: a :: b :: '}' :: rest =>
    if isWordChar a && isWordChar b then
      let t := ahoySplit rest
      ([], (['{', a, b, '}'], t.1) :: t.2)
    else
      let t := ahoySplit (a :: b :: '}' :: rest)
      ('{' :: t.1, t.2)
  | c :: rest =>
    let t := ahoySplit rest
    (c :: t.1, t.2)
  | [] => ([], [])

/-- `re.search(r"\x7d|\x7b", sub_str)` succeeded: the segment holds a loose
brace. -/
def hasBrace (s : List Char) : Bool := s.any (fun c => c == '{' || c == '}')

/-- Python `str.upper()` on ASCII text. -/
def upperStr (s : String) : String := ⟨s.data.map Char.toUpper⟩

/-- Python `str.lower()` on ASCII text (used by `read_file`, which
lowercases every input line). -/
def lowerStr (s : String) : String := ⟨s.data.map Char.toLower⟩

/-- `AHOY_TO_PETCAT[item.upper()]`: dictionary lookup, `KeyError` when the
uppercased placeholder is not a key. -/
def translateCode (code : List Char) : Except Err String :=
  match AHOY_TO_PETCAT.lookup (upperStr ⟨code⟩) with
  | some p => .ok p
  | none => .error .keyError

/-- The reassembly loop of `ahoy_lines_list`: for the matched placeholders
in order, look each up (translated petcat form) and interleave with the
following literal segments.  The source appends `''` to `new_codes` and
joins `str_split[i] ++ new_codes[i]`; with our `(placeholder, segment)`
pairing that join is `seg0 ++ (rep_1 ++ seg_1) ++ ... ++ (rep_k ++ seg_k)`,
the same string. -/
def ahoyParts : List (List Char × List Char) → Except Err (List Char)
  | [] => .ok []
  | (code, seg) :: rest =>
    match translateCode code with
    | .error e => .error e
    | .ok rep =>
      match ahoyParts rest with
      | .error e => .error e
      | .ok tail => .ok (rep.data ++ seg ++ tail)

/-- Normalize one ahoy line (one iteration of the `ahoy_lines_list` loop):
split on placeholders, fail on any loose brace in a segment (returning the
offending line verbatim), then replace each placeholder by its petcat
form. -/
def ahoy_line (line : String) : Except Err String :=
  let t := ahoySplit line.data
  if (t.1 :: t.2.map Prod.snd).any hasBrace then .error (.looseBrace line)
  else
    match ahoyParts t.2 with
    | .error e => .error e
    | .ok tail => .ok ⟨t.1 ++ tail⟩

/-- `ahoy_lines_list`: convert ahoy special characters to petcat special
characters, line by line, stopping at the first failing line. -/
def ahoy_lines_list : List String → Except Err (List String)
  | [] => .ok []
  | l :: ls =>
    match ahoy_line l with
    | .error e => .error e
    | .ok nl =>
      match ahoy_lines_list ls with
      | .error e => .error e
      | .ok rest => .ok (nl :: rest)

/-- Digit-string to integer, as `int(...)` computes it on a digit string. -/
def digitsToNat (ds : List Char) : Nat :=
  ds.foldl (fun n c => 10 * n + (c.toNat - 48)) 0

/-- `split_line_num`: strip leading whitespace, consume the maximal run of
leading digits as the line number, strip whitespace again for the statement
text.  When no digits are present the source evaluates `int('')`, which
raises `ValueError`. -/
def split_line_num (line : String) : Except Err (Nat × String) :=
  let l := line.data.dropWhile Char.isWhitespace
  let ds := l.takeWhile Char.isDigit
  if ds.isEmpty then .error .valueError
  else .ok (digitsToNat ds, ⟨(l.dropWhile Char.isDigit).dropWhile Char.isWhitespace⟩)

/-- The `for (token, value) in tbl: if ln.startswith(token)` loop of
`scan`: first entry (in table order) whose text is a prefix of `s`,
returning its byte value and the text after the match. -/
def tryTokens (tbl : List (String × Nat)) (s : List Char) :
    Option (Nat × List Char) :=
  match tbl with
  | [] => none
  | (t, v) :: rest =>
    if t.data.isPrefixOf s then some (v, s.drop t.data.length)
    else tryTokens rest s

/-- The literal-character fallback of `scan`: `ord` of the first character,
folding lowercase ASCII letters to uppercase, plus the remaining text.
`ln[0]` on an empty string would raise `IndexError` (never reached: the
caller loops `while ln`). -/
def charStep : List Char → Except Err (Nat × List Char)
  | [] => .error .indexError
  | c :: rest =>
    let v := c.toNat
    .ok (if 97 ≤ v ∧ v ≤ 122 then v - 32 else v, rest)

/-- `scan`: petcat mnemonic tokens are tried first, always; when `tokenize`
is set, the keyword table `TOKENS` is tried next — referencing it when no
BASIC version assigned it (`tbl = none`) raises `NameError`; otherwise one
literal character is consumed. -/
def scanM (tbl : Option (List (String × Nat))) (tokenize : Bool)
    (s : List Char) : Except Err (Nat × List Char) :=
  match tryTokens PETCAT_TOKENS s with
  | some r => .ok r
  | none =>
    if tokenize then
      match tbl with
      | none => .error .nameError
      | some tb =>
        match tryTokens tb s with
        | some r => .ok r
        | none => charStep s
    else charStep s

/-- The `while ln` loop of `scan_manager`, with the two state flags
`in_quotes` (`q`) and `in_remark` (`r`).  Returns the emitted bytes (before
the final 0 terminator) and the final flag values.  Each emitted byte
toggles `in_quotes` when it is 34 (`ord('"')`) and sets `in_remark` when it
is 143 (the REM token).  The structural `fuel` argument bounds the number
of iterations; every scan step consumes at least one character, so fuel
equal to the text length (what `scan_manager` passes) is never exhausted —
see `scanLoop_fuel_irrelevant`. -/
def scanLoop (tbl : Option (List (String × Nat))) :
    Nat → Bool → Bool → List Char → Except Err (List Nat × Bool × Bool)
  | _, q, r, [] => .ok ([], q, r)
  | 0, _, _, _ :: _ => .error .indexError
  | fuel + 1, q, r, c :: rest0 =>
    match scanM tbl (!(q || r)) (c :: rest0) with
    | .error e => .error e
    | .ok (b, rest) =>
      match scanLoop tbl fuel (xor q (b == 34)) (r || (b == 143)) rest with
      | .error e => .error e
      | .ok (bs, qf, rf) => .ok (b :: bs, qf, rf)

/-- `scan_manager`: run the scan loop from the initial `NORMAL` state and
append the single 0 terminator byte. -/
def scan_manager (tbl : Option (List (String × Nat))) (s : List Char) :
    Except Err (List Nat) :=
  match scanLoop tbl s.length false false s with
  | .error e => .error e
  | .ok (bs, _, _) => .ok (bs ++ [0])

/-- `int.to_bytes(2, 'little')`: the two little-endian bytes of a 16-bit
value, `OverflowError` when the value does not fit. -/
def to_bytes2 (n : Nat) : Except Err (List Nat) :=
  if n < 65536 then .ok [n % 256, n / 256] else .error .overflowError

/-- One framed program line as `main` builds it (`token_ln`): the
load-address header (first line only), the forward link field, the line
number field, the tokenized statement bytes; `nextAddr` records the link
value before byte-encoding. -/
structure PLine where
  header : List Nat
  link : List Nat
  numBytes : List Nat
  body : List Nat
  nextAddr : Nat
  deriving DecidableEq, Repr

/-- The flat `token_ln` byte list for one program line. -/
def PLine.bytes (p : PLine) : List Nat :=
  p.header ++ p.link ++ p.numBytes ++ p.body

/-- One iteration of the assembly loop in `main`: split off the line
number, prepend the load address when the cursor still equals it (first
line), tokenize the statement, advance the cursor by the tokenized length
plus 4, then encode link and line number.  Returns the framed line and the
new cursor. -/
def assembleLine (tbl : Option (List (String × Nat))) (load addr : Nat)
    (line : String) : Except Err (PLine × Nat) :=
  match split_line_num line with
  | .error e => .error e
  | .ok (num, txt) =>
    match (if addr = load then to_bytes2 addr else .ok []) with
    | .error e => .error e
    | .ok header =>
      match scan_manager tbl txt.data with
      | .error e => .error e
      | .ok body =>
        match to_bytes2 (addr + body.length + 4) with
        | .error e => .error e
        | .ok link =>
          match to_bytes2 num with
          | .error e => .error e
          | .ok numB =>
            .ok (⟨header, link, numB, body, addr + body.length + 4⟩,
              addr + body.length + 4)

/-- The assembly loop of `main` over all lines, threading the address
cursor. -/
def assembleGo (tbl : Option (List (String × Nat))) (load addr : Nat) :
    List String → Except Err (List PLine)
  | [] => .ok []
  | l :: ls =>
    match assembleLine tbl load addr l with
    | .error e => .error e
    | .ok (p, addr2) =>
      match assembleGo tbl load addr2 ls with
      | .error e => .error e
      | .ok rest => .ok (p :: rest)

/-- `out_list` after the flattening step in `main`: the framed lines plus
the `[0, 0]` end marker, flattened to one byte stream. -/
def out_list (tbl : Option (List (String × Nat))) (load : Nat)
    (lines : List String) : Except Err (List Nat) :=
  match assembleGo tbl load load lines with
  | .error e => .error e
  | .ok pls => .ok ((pls.map PLine.bytes ++ [[0, 0]]).flatten)

/-- `TOKENS` configuration in `main`: only version '2' assigns the keyword
table; any other accepted version leaves the global undefined. -/
def tokensFor (version : String) : Option (List (String × Nat)) :=
  if version = "2" then some CORE_TOKENS else none

/-- The conversion pipeline of `main` after reading the (already
lowercased, blank-stripped) input lines: ahoy normalization when the
source format is ahoy, assembly, then the stray debug subscript
`print(out_list[561])` — an `IndexError` for any output of at most 561
bytes — before `write_binary` receives the stream. -/
def convert (source version : String) (load : Nat) (lines : List String) :
    Except Err (List Nat) :=
  match (if source = "ahoy" then ahoy_lines_list lines else .ok lines) with
  | .error e => .error e
  | .ok lines2 =>
    match out_list (tokensFor version) load lines2 with
    | .error e => .error e
    | .ok out => if 561 < out.length then .ok out else .error .indexError

/-- Claim-side predicate: every brace in the text belongs to a well-formed
placeholder, a left brace, two word characters, a right brace; i.e. the
text is a concatenation of brace-free characters and such placeholders. -/
def wellBraced : List Char → Bool
  | [] => true
  | c :: rest =>
    if c = '}' then false
    else if c = '{' then
      match rest with
      | a :: b :: d :: r =>
        isWordChar a && isWordChar b && d = '}' && wellBraced r
      | _ => false
    else wellBraced rest

/-! ### Lemmas about the assembler -/

theorem assembleLine_ok {tbl : Option (List (String × Nat))}
    {load a : Nat} {line : String} {p : PLine} {addr2 : Nat}
    (h : assembleLine tbl load a line = .ok (p, addr2)) :
    addr2 = a + p.body.length + 4 ∧ p.nextAddr = addr2 := by
  unfold assembleLine at h
  repeat' split at h
  all_goals cases h
  all_goals simp

theorem assembleGo_nextAddr {tbl : Option (List (String × Nat))} {load : Nat} :
    ∀ (lines : List String) (a : Nat) (pls : List PLine),
      assembleGo tbl load a lines = .ok pls →
      ∀ i (hi : i < pls.length),
        (pls.get ⟨i, hi⟩).nextAddr =
          a + (((pls.take (i + 1)).map (fun p => 4 + p.body.length)).sum) := by
  intro lines
  induction lines with
  | nil =>
    intro a pls h i hi
    cases h
    simp at hi
  | cons l ls ih =>
    intro a pls h i hi
    unfold assembleGo at h
    split at h
    · cases h
    · rename_i p addr2 hline
      split at h
      · cases h
      · rename_i rest hrest
        cases h
        obtain ⟨ha2, hna⟩ := assembleLine_ok hline
        match i with
        | 0 =>
          simp only [List.get, List.take_succ_cons, List.take_zero,
            List.map_cons, List.map_nil, List.sum_cons, List.sum_nil, hna, ha2]
          omega
        | j + 1 =>
          have hj : j < rest.length := by simpa using hi
          have := ih addr2 rest hrest j hj
          simp only [List.get, List.take_succ_cons, List.map_cons,
            List.sum_cons] at this ⊢
          omega

/-- C1: for every input program assembled at a given load address, the
`next_line_address` field emitted for line `i` equals the load address plus
the sum over lines `0..i` of `4 + length of that line's tokenized byte
sequence` (terminator included), and the flattened output stream always
ends with the two bytes `0x00 0x00`. -/
theorem C1_address_chain (tbl : Option (List (String × Nat))) (load : Nat)
    (lines : List String) (pls : List PLine)
    (h : assembleGo tbl load load lines = .ok pls) :
    (∀ i (hi : i < pls.length),
        (pls.get ⟨i, hi⟩).nextAddr =
          load + (((pls.take (i + 1)).map (fun p => 4 + p.body.length)).sum)) ∧
    (∀ out, out_list tbl load lines = .ok out → ∃ pre, out = pre ++ [0, 0]) := by
  constructor
  · exact assembleGo_nextAddr lines load pls h
  · intro out hout
    unfold out_list at hout
    rw [h] at hout
    cases hout
    exact ⟨(pls.map PLine.bytes).flatten, by simp⟩

theorem C1_address_chain_witness :
    (assembleGo (some CORE_TOKENS) 2049 2049 ["10 print"] =
      .ok [⟨[1, 8], [7, 8], [10, 0], [153, 0], 2055⟩]) ∧
    ((∀ i (hi : i < ([(⟨[1, 8], [7, 8], [10, 0], [153, 0], 2055⟩ : PLine)]).length),
        (([(⟨[1, 8], [7, 8], [10, 0], [153, 0], 2055⟩ : PLine)]).get ⟨i, hi⟩).nextAddr =
          2049 + ((((
            [(⟨[1, 8], [7, 8], [10, 0], [153, 0], 2055⟩ : PLine)]).take (i + 1)).map
              (fun p => 4 + p.body.length)).sum)) ∧
      (∀ out, out_list (some CORE_TOKENS) 2049 ["10 print"] = .ok out →
        ∃ pre, out = pre ++ [0, 0])) :=
  ⟨by decide, C1_address_chain (some CORE_TOKENS) 2049 ["10 print"]
    [⟨[1, 8], [7, 8], [10, 0], [153, 0], 2055⟩] (by decide)⟩

/-- C2 (counterexample): the statement text of input line `10 print "hi"`
is `print "hi"`, whose lexing does NOT produce `[153, 34, 72, 73, 34, 0]`:
the claim omits the byte for the space character between the keyword and
the opening quote. -/
theorem C2_example_counterexample :
    split_line_num "10 print \"hi\"" = .ok (10, "print \"hi\"") ∧
    scan_manager (some CORE_TOKENS) ("print \"hi\"").data ≠
      .ok [153, 34, 72, 73, 34, 0] := by
  exact ⟨by decide, by decide⟩

/-- C2 (amended): lexing the statement text of input line `10 print "hi"`
under pet dialect, BASIC version 2, produces exactly
`[153, 32, 34, 72, 73, 34, 0]`: the PRINT token code, the space character,
a double quote, uppercase-folded H and I, a closing double quote, and the
0 terminator. -/
theorem C2_example_amended :
    split_line_num "10 print \"hi\"" = .ok (10, "print \"hi\"") ∧
    scan_manager (tokensFor "2") ("print \"hi\"").data =
      .ok [153, 32, 34, 72, 73, 34, 0] :=
  ⟨by decide, by decide⟩

/-- C3 (counterexample): on a line with no leading digits the line splitter
does not return line number 0 with the text retained; it fails (the source
evaluates `int('')`, raising `ValueError`). -/
theorem C3_no_digits_counterexample :
    split_line_num "hello" = .error Err.valueError ∧
    split_line_num "hello" ≠ .ok (0, "hello") :=
  ⟨by decide, by decide⟩

/-- C3 (amended): for every input line that, after stripping leading
whitespace, begins with no ASCII digit, the line splitter raises
`ValueError` (from `int('')`); it does not return line number 0. -/
theorem C3_no_digits_amended (line : String)
    (h : (line.data.dropWhile Char.isWhitespace).head?.all
      (fun c => !c.isDigit) = true) :
    split_line_num line = .error Err.valueError := by
  unfold split_line_num
  cases hl : line.data.dropWhile Char.isWhitespace with
  | nil => simp [hl]
  | cons c t =>
    rw [hl] at h
    simp only [Option.all, List.head?] at h
    have hc : c.isDigit = false := by
      cases hd : c.isDigit
      · rfl
      · rw [hd] at h
        cases h
    simp [hl, List.takeWhile, hc]

theorem C3_no_digits_witness :
    (("hello").data.dropWhile Char.isWhitespace).head?.all
      (fun c => !c.isDigit) = true ∧
    split_line_num "hello" = .error Err.valueError :=
  ⟨by decide, C3_no_digits_amended "hello" (by decide)⟩

set_option maxRecDepth 4000 in
/-- C5 (code bug): selecting a BASIC version other than '2' does not raise
a clean unsupported-dialect error before tokenization starts.  No keyword
table is configured (`tokensFor "1" = none`), and the conversion of
`10 print` fails only when the scanner first dereferences the undefined
`TOKENS` global (`NameError`), i.e. during tokenization; a statement made
only of petcat mnemonics tokenizes fine (`\x7bclr\x7d` to `[147, 0]`), and
a large enough all-mnemonic program converts to a binary stream with no
error at all. -/
theorem C5_missing_table_bug :
    tokensFor "1" = none ∧
    convert "pet" "1" 2049 ["10 print"] = .error Err.nameError ∧
    scan_manager (tokensFor "1") ("\x7bclr\x7d").data = .ok [147, 0] ∧
    (convert "pet" "1" 2049
      (List.replicate 70 "1 \x7bclr\x7d\x7bclr\x7d\x7bclr\x7d")).isOk =
        true :=
  ⟨rfl, by decide, by decide, by decide⟩

/-- C10: for every input program whose flattened output stream (header,
framed lines, sentinel) has at most 561 bytes, the conversion fails with
the uncaught `IndexError` from the stray `print(out_list[561])` after
assembly and before `write_binary` runs, so no binary artifact is
produced. -/
theorem C10_small_program_crash (source version : String) (load : Nat)
    (lines lines2 : List String) (out : List Nat)
    (hnorm : (if source = "ahoy" then ahoy_lines_list lines else .ok lines) =
      .ok lines2)
    (hasm : out_list (tokensFor version) load lines2 = .ok out)
    (hlen : out.length ≤ 561) :
    convert source version load lines = .error Err.indexError := by
  unfold convert
  rw [hnorm]
  dsimp only
  rw [hasm]
  dsimp only
  rw [if_neg (by omega : ¬ 561 < out.length)]

theorem C10_small_program_crash_witness :
    ((if ("pet" : String) = "ahoy" then ahoy_lines_list ["10 print"]
      else .ok ["10 print"]) = .ok ["10 print"]) ∧
    out_list (tokensFor "2") 2049 ["10 print"] =
      .ok [1, 8, 7, 8, 10, 0, 153, 0, 0, 0] ∧
    ([1, 8, 7, 8, 10, 0, 153, 0, 0, 0] : List Nat).length ≤ 561 ∧
    convert "pet" "2" 2049 ["10 print"] = .error Err.indexError :=
  ⟨by decide, by decide, by decide,
    C10_small_program_crash "pet" "2" 2049 ["10 print"] ["10 print"]
      [1, 8, 7, 8, 10, 0, 153, 0, 0, 0] (by decide) (by decide) (by decide)⟩

/-! ### Lemmas about the scanner state flags -/

theorem scanLoop_quote_parity (tbl : Option (List (String × Nat))) :
    ∀ (fuel : Nat) (s : List Char) (q r : Bool) (bs : List Nat) (qf rf : Bool),
      scanLoop tbl fuel q r s = .ok (bs, qf, rf) →
      qf = xor q (decide (bs.count 34 % 2 = 1)) := by
  intro fuel
  induction fuel with
  | zero =>
    intro s q r bs qf rf h
    cases s with
    | nil =>
      cases h
      simp
    | cons c t => cases h
  | succ f ih =>
    intro s q r bs qf rf h
    cases s with
    | nil =>
      cases h
      simp
    | cons c rest0 =>
      unfold scanLoop at h
      split at h
      · cases h
      · rename_i b rest hscan
        split at h
        · cases h
        · rename_i bs2 qf2 rf2 hrec
          cases h
          have hq := ih rest _ _ _ _ _ hrec
          subst hq
          rw [Bool.xor_assoc]
          congr 1
          by_cases hb : b = 34
          · subst hb
            have : (34 :: bs2).count 34 = bs2.count 34 + 1 := by
              simp [List.count_cons]
            rw [this]
            rcases Nat.mod_two_eq_zero_or_one (bs2.count 34) with hm | hm <;>
              simp [Nat.add_mod, hm]
          · have hbeq : (b == 34) = false := by simp [hb]
            have : (b :: bs2).count 34 = bs2.count 34 := by
              simp [List.count_cons, Ne.symm hb]
            rw [this, hbeq, Bool.false_xor]

/-- C8: for every statement text fully consumed by the lexer, the final
quote state is `IN_QUOTE` exactly when the number of double-quote bytes
(34) emitted is odd, and `NORMAL` when it is even; no mnemonic-table or
keyword-table entry carries byte value 34, so no token match can alter the
quote state. -/
theorem C8_quote_parity (tbl : Option (List (String × Nat))) (s : List Char)
    (bs : List Nat) (qf rf : Bool)
    (h : scanLoop tbl s.length false false s = .ok (bs, qf, rf)) :
    (qf = decide (bs.count 34 % 2 = 1)) ∧
    (∀ p ∈ PETCAT_TOKENS, p.2 ≠ 34) ∧ (∀ p ∈ CORE_TOKENS, p.2 ≠ 34) := by
  refine ⟨?_, by decide, by decide⟩
  have := scanLoop_quote_parity tbl s.length s false false bs qf rf h
  simpa using this

theorem C8_quote_parity_witness :
    (scanLoop (some CORE_TOKENS) (("\"a\"b\"").data.length) false false
      ("\"a\"b\"").data = .ok ([34, 65, 34, 66, 34], true, false)) ∧
    ((true = decide (([34, 65, 34, 66, 34] : List Nat).count 34 % 2 = 1)) ∧
      (∀ p ∈ PETCAT_TOKENS, p.2 ≠ 34) ∧ (∀ p ∈ CORE_TOKENS, p.2 ≠ 34)) :=
  ⟨by decide, C8_quote_parity (some CORE_TOKENS) ("\"a\"b\"").data
    [34, 65, 34, 66, 34] true false (by decide)⟩

/-- With `tokenize = False`, `scan` never references the keyword table:
its result is independent of whether `TOKENS` is defined and of its
contents. -/
theorem scanM_false_tbl (t1 t2 : Option (List (String × Nat)))
    (s : List Char) : scanM t1 false s = scanM t2 false s := by
  unfold scanM
  cases tryTokens PETCAT_TOKENS s <;> simp

/-- Once `in_remark` is set, the whole rest of the scan is independent of
the keyword table: every remaining byte comes from the petcat mnemonic
table or from a literal character. -/
theorem scanLoop_remark_tbl (t1 t2 : Option (List (String × Nat))) :
    ∀ (fuel : Nat) (q : Bool) (s : List Char),
      scanLoop t1 fuel q true s = scanLoop t2 fuel q true s := by
  intro fuel
  induction fuel with
  | zero => intro q s; cases s <;> rfl
  | succ f ih =>
    intro q s
    cases s with
    | nil => rfl
    | cons c rest0 =>
      unfold scanLoop
      rw [show (!(q || true)) = false by simp]
      rw [scanM_false_tbl t1 t2]
      cases scanM t2 false (c :: rest0) with
      | error e => rfl
      | ok br =>
        obtain ⟨b, rest⟩ := br
        dsimp only
        simp only [Bool.true_or]
        rw [ih]

/-- After the first 143 byte (the REM token) in the scanner's output, the
remaining bytes are produced by a scan in remark state, which is
keyword-table-free. -/
theorem scanLoop_after_rem (tbl : Option (List (String × Nat))) :
    ∀ (fuel : Nat) (s : List Char) (q r : Bool) (bs : List Nat)
      (qf rf : Bool) (pre post : List Nat),
      scanLoop tbl fuel q r s = .ok (bs, qf, rf) →
      bs = pre ++ 143 :: post →
      143 ∉ pre →
      ∃ (s2 : List Char) (q2 : Bool) (fuel2 : Nat),
        scanLoop tbl fuel2 q2 true s2 = .ok (post, qf, rf) ∧
        scanLoop none fuel2 q2 true s2 = .ok (post, qf, rf) := by
  intro fuel
  induction fuel with
  | zero =>
    intro s q r bs qf rf pre post h hsplit hpre
    cases s with
    | nil =>
      cases h
      simp at hsplit
    | cons c t => cases h
  | succ f ih =>
    intro s q r bs qf rf pre post h hsplit hpre
    cases s with
    | nil =>
      cases h
      simp at hsplit
    | cons c rest0 =>
      unfold scanLoop at h
      split at h
      · cases h
      · rename_i b rest hscan
        split at h
        · cases h
        · rename_i bs2 qf2 rf2 hrec
          cases h
          cases pre with
          | nil =>
            simp only [List.nil_append, List.cons.injEq] at hsplit
            obtain ⟨hb, hpost⟩ := hsplit
            subst hb
            subst hpost
            rw [show (r || ((143 : Nat) == 143)) = true by simp] at hrec
            refine ⟨rest, xor q ((143 : Nat) == 34), f, hrec, ?_⟩
            rw [← scanLoop_remark_tbl tbl none f (xor q ((143 : Nat) == 34)) rest]
            exact hrec
          | cons p ps =>
            simp only [List.cons_append, List.cons.injEq] at hsplit
            obtain ⟨hb, hbs2⟩ := hsplit
            have hps : (143 : Nat) ∉ ps := by
              intro hm
              exact hpre (List.mem_cons_of_mem p hm)
            exact ih rest _ _ _ _ _ ps post hrec hbs2 hps

/-- Every petcat token matches itself exactly at the head of the text: the
table scan in `scan` returns its byte value and consumes precisely the
token.  (No petcat entry is a prefix of another entry followed by further
text: each entry holds exactly one right brace, at its end.) -/
theorem petcat_exact {p : String} {v : Nat}
    (h : (p, v) ∈ PETCAT_TOKENS) (rest : List Char) :
    tryTokens PETCAT_TOKENS (p.data ++ rest) = some (v, rest) := by
  fin_cases h <;>
    simp [tryTokens, PETCAT_TOKENS, List.isPrefixOf, List.drop]

/-- C9: once the REM token code (143) has been emitted, no keyword-table
match ever occurs again in that line: the rest of the output is produced
by a scan in remark state whose result is the same with the keyword table
absent (`tbl = none`), so every later byte comes from the petcat mnemonic
table or a literal character; and petcat mnemonic matching remains active
even with no keyword table, a mnemonic at the head of the remaining text
still yields exactly its table byte. -/
theorem C9_remark_suppression (tbl : Option (List (String × Nat)))
    (s : List Char) (bs : List Nat) (qf rf : Bool)
    (pre post : List Nat)
    (h : scanLoop tbl s.length false false s = .ok (bs, qf, rf))
    (hsplit : bs = pre ++ 143 :: post) (hpre : 143 ∉ pre) :
    (∃ (s2 : List Char) (q2 : Bool) (fuel2 : Nat),
        scanLoop tbl fuel2 q2 true s2 = .ok (post, qf, rf) ∧
        scanLoop none fuel2 q2 true s2 = .ok (post, qf, rf)) ∧
    (∀ (p : String) (v : Nat), (p, v) ∈ PETCAT_TOKENS →
      ∀ (t : List Char) (tok : Bool),
        scanM none tok (p.data ++ t) = .ok (v, t)) := by
  constructor
  · exact scanLoop_after_rem tbl s.length s false false bs qf rf pre post
      h hsplit hpre
  · intro p v hp t tok
    unfold scanM
    rw [petcat_exact hp t]

theorem C9_remark_suppression_witness :
    (scanLoop (some CORE_TOKENS) (("rem a\x7bup\x7d").data.length) false false
      ("rem a\x7bup\x7d").data = .ok ([143, 32, 65, 145], false, true)) ∧
    (([143, 32, 65, 145] : List Nat) = [] ++ 143 :: [32, 65, 145]) ∧
    ((143 : Nat) ∉ ([] : List Nat)) ∧
    ((∃ (s2 : List Char) (q2 : Bool) (fuel2 : Nat),
        scanLoop (some CORE_TOKENS) fuel2 q2 true s2 =
          .ok ([32, 65, 145], false, true) ∧
        scanLoop none fuel2 q2 true s2 = .ok ([32, 65, 145], false, true)) ∧
      (∀ (p : String) (v : Nat), (p, v) ∈ PETCAT_TOKENS →
        ∀ (t : List Char) (tok : Bool),
          scanM none tok (p.data ++ t) = .ok (v, t))) :=
  ⟨by decide, by decide, by decide,
    C9_remark_suppression (some CORE_TOKENS) ("rem a\x7bup\x7d").data
      [143, 32, 65, 145] false true [] [32, 65, 145]
      (by decide) (by decide) (by decide)⟩

/-! ### Lemmas about the ahoy normalizer -/

theorem wellBraced_placeholder {a b : Char} {rest : List Char}
    (hw : (isWordChar a && isWordChar b) = true) :
    wellBraced ('{' :: a :: b :: '}' :: rest) = wellBraced rest := by
  conv_lhs => rw [wellBraced.eq_def]
  simp [hw]

theorem wellBraced_lbrace_bad {rest : List Char}
    (h : ∀ (a b : Char) (r1 : List Char), rest = a :: b :: '}' :: r1 → False) :
    wellBraced ('{' :: rest) = false := by
  match rest with
  | [] => rfl
  | [x] => rfl
  | [x, y] => rfl
  | x :: y :: z :: r =>
    have hz : z ≠ '}' := fun hz => h x y r (by rw [hz])
    conv_lhs => rw [wellBraced.eq_def]
    simp [hz]

theorem wellBraced_rbrace (rest : List Char) :
    wellBraced ('}' :: rest) = false := by
  conv_lhs => rw [wellBraced.eq_def]
  simp

theorem wellBraced_other {c : Char} (h1 : c ≠ '{') (h2 : c ≠ '}')
    (rest : List Char) : wellBraced (c :: rest) = wellBraced rest := by
  conv_lhs => rw [wellBraced.eq_def]
  simp [h1, h2]

/-- The loose-brace check of `ahoy_lines_list` fires exactly on lines that
are not well-braced: a brace survives into some `re.split` segment iff some
brace of the line lies outside a well-formed placeholder. -/
theorem ahoySplit_noBrace (s : List Char) :
    (((ahoySplit s).1 :: (ahoySplit s).2.map Prod.snd).any hasBrace) =
      !wellBraced s := by
  induction s using ahoySplit.induct with
  | case1 a b rest hw ih =>
    simp only [ahoySplit, hw, if_true, List.map_cons, List.any_cons,
      wellBraced_placeholder hw]
    rw [← ih]
    simp [hasBrace, List.any_cons]
  | case2 a b rest hw ih =>
    have hw2 : (isWordChar a && isWordChar b) = false := by
      cases hval : (isWordChar a && isWordChar b)
      · rfl
      · exact absurd hval hw
    simp only [ahoySplit, hw2, Bool.false_eq_true, if_false, List.map_cons,
      List.any_cons]
    conv_rhs => rw [wellBraced.eq_def]
    simp [hasBrace, hw2]
  | case3 c rest h ih =>
    rw [ahoySplit.eq_def]
    split
    · rename_i pa pb pr heq
      injection heq with h1 h2
      exact absurd h2 (fun hh => h pa pb pr h1 hh)
    · rename_i hno heq
      injection heq with h1 h2
      subst h1
      subst h2
      dsimp only
      by_cases hc1 : c = '{'
      · subst hc1
        rw [wellBraced_lbrace_bad (fun a b r1 hr => h a b r1 rfl hr)]
        simp [List.any_cons, hasBrace]
      · by_cases hc2 : c = '}'
        · subst hc2
          rw [wellBraced_rbrace]
          simp [List.any_cons, hasBrace]
        · rw [wellBraced_other hc1 hc2]
          rw [← ih]
          have h3 : (c == '{') = false := beq_eq_false_iff_ne.mpr hc1
          have h4 : (c == '}') = false := beq_eq_false_iff_ne.mpr hc2
          simp [List.any_cons, hasBrace, h3, h4]
    · rename_i heq
      cases heq
  | case4 =>
    rfl

/-- A line that is not well-braced normalizes to the loose-brace error
carrying that exact line. -/
theorem ahoy_line_loose {line : String}
    (hw : wellBraced line.data = false) :
    ahoy_line line = .error (.looseBrace line) := by
  have hseg := ahoySplit_noBrace line.data
  rw [hw, Bool.not_false] at hseg
  unfold ahoy_line
  simp only [hseg, if_true]

theorem ahoy_lines_list_loose (pre post : List String) (line : String)
    (hpre : ∀ l ∈ pre, ∃ s, ahoy_line l = .ok s)
    (hw : wellBraced line.data = false) :
    ahoy_lines_list (pre ++ line :: post) = .error (.looseBrace line) := by
  induction pre with
  | nil =>
    rw [List.nil_append]
    unfold ahoy_lines_list
    rw [ahoy_line_loose hw]
  | cons p ps ih =>
    obtain ⟨s, hs⟩ := hpre p (List.mem_cons_self p ps)
    rw [List.cons_append]
    unfold ahoy_lines_list
    rw [hs, ih (fun l hl => hpre l (List.mem_cons_of_mem p hl))]

/-- C6 (counterexample): the line `\x7bzz\x7d` has all its braces inside a
well-formed but unrecognized placeholder, so every brace is outside any
*recognized* placeholder; yet normalization does not fail with the
loose-brace format error naming the line — it crashes with the uncaught
`KeyError` from the dictionary lookup. -/
theorem C6_loose_counterexample :
    ahoy_lines_list ["\x7bzz\x7d"] = .error Err.keyError ∧
    ∀ l, Err.keyError ≠ Err.looseBrace l :=
  ⟨by decide, fun l h => Err.noConfusion h⟩

/-- C6 (amended): for every ahoy-dialect input in which some line contains
a brace outside any *well-formed* `\x7bXX\x7d` placeholder (left brace, two
word characters, right brace), and every earlier line normalizes cleanly,
normalization fails with the loose-brace format error citing that
offending line verbatim, and the conversion aborts with that error — no
binary output is produced. -/
theorem C6_loose_amended (pre post : List String) (line : String)
    (hpre : ∀ l ∈ pre, ∃ s, ahoy_line l = .ok s)
    (hw : wellBraced line.data = false)
    (version : String) (load : Nat) :
    ahoy_lines_list (pre ++ line :: post) = .error (.looseBrace line) ∧
    convert "ahoy" version load (pre ++ line :: post) =
      .error (.looseBrace line) := by
  have h1 := ahoy_lines_list_loose pre post line hpre hw
  refine ⟨h1, ?_⟩
  unfold convert
  rw [if_pos rfl, h1]

theorem C6_loose_witness :
    (∀ l ∈ ([] : List String), ∃ s, ahoy_line l = .ok s) ∧
    wellBraced ("a\x7db").data = false ∧
    (ahoy_lines_list ([] ++ "a\x7db" :: []) =
      .error (.looseBrace "a\x7db") ∧
    convert "ahoy" "2" 2049 ([] ++ "a\x7db" :: []) =
      .error (.looseBrace "a\x7db")) :=
  ⟨fun l hl => absurd hl (List.not_mem_nil l), by decide,
    C6_loose_amended [] [] "a\x7db"
      (fun l hl => absurd hl (List.not_mem_nil l)) (by decide) "2" 2049⟩

theorem lookup_mem_values {k v : String} {l : List (String × String)}
    (h : l.lookup k = some v) : ∃ p ∈ l, p.2 = v := by
  induction l with
  | nil => cases h
  | cons p ps ih =>
    unfold List.lookup at h
    split at h
    · cases h
      exact ⟨p, List.mem_cons_self p ps, rfl⟩
    · obtain ⟨q, hq, hv⟩ := ih h
      exact ⟨q, List.mem_cons_of_mem p hq, hv⟩

theorem count_brace_zero {s : List Char} (h : hasBrace s = false) :
    s.count '{' = 0 ∧ s.count '}' = 0 := by
  unfold hasBrace at h
  rw [List.any_eq_false] at h
  constructor <;> rw [List.count_eq_zero] <;> intro hm <;>
    exact absurd (by simp) (h _ hm)

/-- Every petcat replacement text in the translation table holds exactly
one left brace and one right brace. -/
theorem petcat_value_braces :
    ∀ p ∈ AHOY_TO_PETCAT, p.2.data.count '{' = 1 ∧ p.2.data.count '}' = 1 :=
  by decide

theorem ahoyParts_ok (pairs : List (List Char × List Char))
    (hseg : ∀ pr ∈ pairs, hasBrace pr.2 = false)
    (hrec : ∀ pr ∈ pairs,
      (AHOY_TO_PETCAT.lookup (upperStr ⟨pr.1⟩)).isSome = true) :
    ∃ t, ahoyParts pairs = .ok t ∧
      t.count '{' = pairs.length ∧ t.count '}' = pairs.length := by
  induction pairs with
  | nil => exact ⟨[], rfl, rfl, rfl⟩
  | cons pr ps ih =>
    obtain ⟨code, seg⟩ := pr
    have h1 := hrec _ (List.mem_cons_self _ ps)
    obtain ⟨rep, hrep⟩ := Option.isSome_iff_exists.mp h1
    obtain ⟨t, ht, hc1, hc2⟩ :=
      ih (fun x hx => hseg x (List.mem_cons_of_mem _ hx))
        (fun x hx => hrec x (List.mem_cons_of_mem _ hx))
    obtain ⟨p, hpmem, hpv⟩ := lookup_mem_values hrep
    obtain ⟨hv1, hv2⟩ := petcat_value_braces p hpmem
    rw [hpv] at hv1 hv2
    obtain ⟨hs1, hs2⟩ := count_brace_zero (hseg _ (List.mem_cons_self _ ps))
    refine ⟨rep.data ++ seg ++ t, ?_, ?_, ?_⟩
    · unfold ahoyParts translateCode
      rw [hrep, ht]
    · rw [List.count_append, List.count_append, hv1, hs1, hc1]
      simp [Nat.add_comm]
    · rw [List.count_append, List.count_append, hv2, hs2, hc2]
      simp [Nat.add_comm]

/-- A well-braced line whose placeholders are all recognized normalizes
successfully; the normalized line holds exactly one left and one right
brace per placeholder — the braces of the substituted petcat mnemonics —
and no others. -/
theorem ahoy_line_ok {line : String} (hw : wellBraced line.data = true)
    (hrec : ∀ pr ∈ (ahoySplit line.data).2,
      (AHOY_TO_PETCAT.lookup (upperStr ⟨pr.1⟩)).isSome = true) :
    ∃ nl, ahoy_line line = .ok nl ∧
      nl.data.count '{' = (ahoySplit line.data).2.length ∧
      nl.data.count '}' = (ahoySplit line.data).2.length := by
  have hseg := ahoySplit_noBrace line.data
  rw [hw, Bool.not_true] at hseg
  rw [List.any_eq_false] at hseg
  have hseg0 : hasBrace (ahoySplit line.data).1 = false := by
    have := hseg _ (List.mem_cons_self _ _)
    simpa using this
  have hsegs : ∀ pr ∈ (ahoySplit line.data).2, hasBrace pr.2 = false := by
    intro pr hpr
    have : pr.2 ∈ ((ahoySplit line.data).1 ::
        (ahoySplit line.data).2.map Prod.snd) :=
      List.mem_cons_of_mem _ (List.mem_map_of_mem Prod.snd hpr)
    have := hseg _ this
    simpa using this
  obtain ⟨t, ht, hc1, hc2⟩ := ahoyParts_ok _ hsegs hrec
  obtain ⟨h01, h02⟩ := count_brace_zero hseg0
  refine ⟨⟨(ahoySplit line.data).1 ++ t⟩, ?_, ?_, ?_⟩
  · unfold ahoy_line
    have hany : (((ahoySplit line.data).1 ::
        (ahoySplit line.data).2.map Prod.snd).any hasBrace) = false := by
      rw [List.any_eq_false]
      exact hseg
    simp only [hany, Bool.false_eq_true, if_false, ht]
  · show ((ahoySplit line.data).1 ++ t).count '{' = _
    rw [List.count_append, h01, hc1]
    simp
  · show ((ahoySplit line.data).1 ++ t).count '}' = _
    rw [List.count_append, h02, hc2]
    simp

/-- C4 (counterexample): the line `\x7bsc\x7d` consists of one correctly
paired recognized placeholder, yet its normalization `\x7bclr\x7d` (the
petcat substitution) still contains brace characters, contradicting the
claim that the normalized output contains no braces. -/
theorem C4_balanced_counterexample :
    wellBraced ("\x7bsc\x7d").data = true ∧
    ahoy_lines_list ["\x7bsc\x7d"] = .ok ["\x7bclr\x7d"] ∧
    hasBrace ("\x7bclr\x7d").data = true :=
  ⟨by decide, by decide, by decide⟩

/-- C4 (amended): for every ahoy-dialect input whose every brace belongs
to a correctly paired recognized placeholder, normalization succeeds
(returns a list of lines, not an error), and each normalized line holds
exactly one left brace and one right brace per placeholder of the
corresponding input line — the braces of the substituted petcat mnemonics
— and no other braces. -/
theorem C4_balanced_amended (lines : List String)
    (h : ∀ l ∈ lines, wellBraced l.data = true ∧
      ∀ pr ∈ (ahoySplit l.data).2,
        (AHOY_TO_PETCAT.lookup (upperStr ⟨pr.1⟩)).isSome = true) :
    ∃ out, ahoy_lines_list lines = .ok out ∧
      out.length = lines.length ∧
      ∀ i (hi : i < out.length) (hi2 : i < lines.length),
        (out.get ⟨i, hi⟩).data.count '{' =
          (ahoySplit (lines.get ⟨i, hi2⟩).data).2.length ∧
        (out.get ⟨i, hi⟩).data.count '}' =
          (ahoySplit (lines.get ⟨i, hi2⟩).data).2.length := by
  induction lines with
  | nil => exact ⟨[], rfl, rfl, fun i hi hi2 => absurd hi (by simp)⟩
  | cons l ls ih =>
    obtain ⟨hw, hrec⟩ := h l (List.mem_cons_self l ls)
    obtain ⟨nl, hnl, hn1, hn2⟩ := ahoy_line_ok hw hrec
    obtain ⟨out, hout, hlen, hcnt⟩ :=
      ih (fun x hx => h x (List.mem_cons_of_mem l hx))
    refine ⟨nl :: out, ?_, by simp [hlen], ?_⟩
    · unfold ahoy_lines_list
      rw [hnl, hout]
    · intro i hi hi2
      match i with
      | 0 => exact ⟨hn1, hn2⟩
      | j + 1 =>
        exact hcnt j (by simpa using hi) (by simpa using hi2)

theorem C4_balanced_witness :
    (∀ l ∈ (["a\x7bcl\x7db"] : List String), wellBraced l.data = true ∧
      ∀ pr ∈ (ahoySplit l.data).2,
        (AHOY_TO_PETCAT.lookup (upperStr ⟨pr.1⟩)).isSome = true) ∧
    (∃ out, ahoy_lines_list ["a\x7bcl\x7db"] = .ok out ∧
      out.length = (["a\x7bcl\x7db"] : List String).length ∧
      ∀ i (hi : i < out.length)
        (hi2 : i < (["a\x7bcl\x7db"] : List String).length),
        (out.get ⟨i, hi⟩).data.count '{' =
          (ahoySplit (((["a\x7bcl\x7db"] : List String)).get
            ⟨i, hi2⟩).data).2.length ∧
        (out.get ⟨i, hi⟩).data.count '}' =
          (ahoySplit (((["a\x7bcl\x7db"] : List String)).get
            ⟨i, hi2⟩).data).2.length) :=
  ⟨by decide, C4_balanced_amended ["a\x7bcl\x7db"] (by decide)⟩

/-! ### Lemmas for the mnemonic round trip -/

theorem petcat_keys_lbrace :
    ∀ p ∈ PETCAT_TOKENS, p.1.data.head? = some '{' := by decide

theorem core_keys_ne_nil : ∀ p ∈ CORE_TOKENS, p.1.data ≠ [] := by decide

theorem petcat_keys_ne_nil : ∀ p ∈ PETCAT_TOKENS, p.1.data ≠ [] := by decide

theorem core_keys_no_lbrace :
    ∀ p ∈ CORE_TOKENS, ∀ ch ∈ p.1.data, ch ≠ '{' := by decide

/-- No petcat mnemonic byte is the double quote (34) or the REM code
(143), so a mnemonic match changes neither scanner flag. -/
theorem petcat_values_safe :
    ∀ p ∈ PETCAT_TOKENS, p.2 ≠ 34 ∧ p.2 ≠ 143 := by decide

theorem hasBrace_cons_false {c : Char} {t : List Char}
    (h : hasBrace (c :: t) = false) :
    c ≠ '{' ∧ c ≠ '}' ∧ hasBrace t = false := by
  unfold hasBrace at h ⊢
  simp only [List.any_cons, Bool.or_eq_false_iff, beq_eq_false_iff_ne] at h
  exact ⟨h.1.1, h.1.2, h.2⟩

theorem hasBrace_drop {s : List Char} (h : hasBrace s = false) (k : Nat) :
    hasBrace (s.drop k) = false := by
  unfold hasBrace at h ⊢
  rw [List.any_eq_false] at h ⊢
  exact fun c hc => h c (List.mem_of_mem_drop hc)

/-- A table whose every entry starts with a left brace matches nothing at
a non-left-brace character. -/
theorem tryTokens_head_ne {tbl : List (String × Nat)} {c : Char}
    {l : List Char} (h : ∀ p ∈ tbl, p.1.data.head? = some '{')
    (hc : c ≠ '{') : tryTokens tbl (c :: l) = none := by
  induction tbl with
  | nil => rfl
  | cons p ps ih =>
    obtain ⟨t, v⟩ := p
    have ht := h (t, v) (List.mem_cons_self _ ps)
    unfold tryTokens
    match htd : t.data with
    | [] => rw [htd] at ht; cases ht
    | th :: tt =>
      rw [htd] at ht
      have hth : th = '{' := by
        simpa using ht
      subst hth
      have hcb : (('{' : Char) == c) = false :=
        beq_eq_false_iff_ne.mpr (fun hh => hc hh.symm)
      have hpre : (('{' :: tt).isPrefixOf (c :: l)) = false := by
        simp [List.isPrefixOf, hcb]
      rw [hpre]
      simp only [Bool.false_eq_true, if_false]
      exact ih (fun q hq => h q (List.mem_cons_of_mem _ hq))

/-- A brace-free token is a prefix of `pre ++ tr` iff it is a prefix of
`pre`, when `tr` is empty or starts with a left brace. -/
theorem isPrefixOf_append_brace {t : List Char}
    (ht : ∀ ch ∈ t, ch ≠ '{') :
    ∀ (pre tr : List Char), (tr = [] ∨ ∃ u, tr = '{' :: u) →
      t.isPrefixOf (pre ++ tr) = t.isPrefixOf pre := by
  induction t with
  | nil => intro pre tr _; simp [List.isPrefixOf]
  | cons a t2 ih =>
    intro pre tr hr
    cases pre with
    | nil =>
      rcases hr with h0 | ⟨u, hu⟩
      · subst h0
        simp
      · subst hu
        have ha : (a == '{') = false :=
          beq_eq_false_iff_ne.mpr (ht a (List.mem_cons_self _ _))
        simp [List.isPrefixOf, ha]
    | cons p pre2 =>
      simp only [List.cons_append, List.isPrefixOf, List.append_eq]
      rw [ih (fun ch hch => ht ch (List.mem_cons_of_mem _ hch)) pre2 tr hr]

/-- Matching a table of brace-free tokens against `pre ++ tr` (with `tr`
empty or brace-headed) is matching against `pre`, with the remainder
extended by `tr`. -/
theorem tryTokens_append {tbl : List (String × Nat)}
    (hfree : ∀ p ∈ tbl, ∀ ch ∈ p.1.data, ch ≠ '{')
    (pre tr : List Char) (hr : tr = [] ∨ ∃ u, tr = '{' :: u) :
    tryTokens tbl (pre ++ tr) =
      (tryTokens tbl pre).map (fun x => (x.1, x.2 ++ tr)) := by
  induction tbl with
  | nil => rfl
  | cons p ps ih =>
    obtain ⟨t, v⟩ := p
    unfold tryTokens
    rw [isPrefixOf_append_brace
      (hfree (t, v) (List.mem_cons_self _ ps)) pre tr hr]
    cases hp : t.data.isPrefixOf pre with
    | false =>
      simp only [Bool.false_eq_true, if_false]
      exact ih (fun q hq => hfree q (List.mem_cons_of_mem _ hq))
    | true =>
      simp only [if_true]
      have hle : t.data.length ≤ pre.length :=
        (List.isPrefixOf_iff_prefix.mp hp).length_le
      rw [List.drop_append_of_le_length hle]
      rfl

theorem tryTokens_drop {tbl : List (String × Nat)} {s : List Char}
    {v : Nat} {rem : List Char}
    (hne : ∀ p ∈ tbl, p.1.data ≠ [])
    (h : tryTokens tbl s = some (v, rem)) :
    ∃ k, 1 ≤ k ∧ rem = s.drop k := by
  induction tbl with
  | nil => cases h
  | cons p ps ih =>
    obtain ⟨t, w⟩ := p
    unfold tryTokens at h
    split at h
    · cases h
      refine ⟨t.data.length, ?_, rfl⟩
      have hne2 := hne _ (List.mem_cons_self _ _)
      cases htd : t.data with
      | nil => exact absurd htd hne2
      | cons x xs => simp
    · exact ih (fun q hq => hne q (List.mem_cons_of_mem _ hq)) h

/-- Every scan step over the version-2 configuration succeeds and consumes
at least one character. -/
theorem scanM_some_step (tok : Bool) (c : Char) (s2 : List Char) :
    ∃ b k, 1 ≤ k ∧ scanM (some CORE_TOKENS) tok (c :: s2) =
      .ok (b, (c :: s2).drop k) := by
  unfold scanM
  cases hp : tryTokens PETCAT_TOKENS (c :: s2) with
  | some r =>
    obtain ⟨v, rem⟩ := r
    obtain ⟨k, hk, hrem⟩ := tryTokens_drop petcat_keys_ne_nil hp
    exact ⟨v, k, hk, by rw [hrem]⟩
  | none =>
    cases tok with
    | true =>
      cases hc : tryTokens CORE_TOKENS (c :: s2) with
      | some r =>
        obtain ⟨v, rem⟩ := r
        obtain ⟨k, hk, hrem⟩ := tryTokens_drop core_keys_ne_nil hc
        refine ⟨v, k, hk, ?_⟩
        rw [if_pos rfl]
        dsimp only
        rw [hc, hrem]
      | none =>
        refine ⟨(if 97 ≤ c.toNat ∧ c.toNat ≤ 122 then c.toNat - 32
          else c.toNat), 1, le_refl 1, ?_⟩
        rw [if_pos rfl]
        dsimp only
        rw [hc]
        rfl
    | false =>
      refine ⟨(if 97 ≤ c.toNat ∧ c.toNat ≤ 122 then c.toNat - 32
        else c.toNat), 1, le_refl 1, ?_⟩
      rw [if_neg (by simp)]
      rfl

theorem scanLoop_some_ok :
    ∀ (fuel : Nat) (s : List Char) (q r : Bool), s.length ≤ fuel →
      ∃ bs qf rf,
        scanLoop (some CORE_TOKENS) fuel q r s = .ok (bs, qf, rf) := by
  intro fuel
  induction fuel with
  | zero =>
    intro s q r hs
    cases s with
    | nil => exact ⟨[], q, r, rfl⟩
    | cons c s2 => simp at hs
  | succ f ih =>
    intro s q r hs
    cases s with
    | nil => exact ⟨[], q, r, rfl⟩
    | cons c s2 =>
      obtain ⟨b, k, hk, hstep⟩ := scanM_some_step (!(q || r)) c s2
      have hlen : ((c :: s2).drop k).length ≤ f := by
        rw [List.length_drop]
        simp only [List.length_cons] at hs ⊢
        omega
      obtain ⟨bs, qf, rf, hrec⟩ :=
        ih _ (xor q (b == 34)) (r || (b == 143)) hlen
      refine ⟨b :: bs, qf, rf, ?_⟩
      unfold scanLoop
      rw [hstep]
      dsimp only
      rw [hrec]

theorem scanLoop_some_fuel :
    ∀ (f1 : Nat) (s : List Char) (f2 : Nat) (q r : Bool),
      s.length ≤ f1 → s.length ≤ f2 →
      scanLoop (some CORE_TOKENS) f1 q r s =
        scanLoop (some CORE_TOKENS) f2 q r s := by
  intro f1
  induction f1 with
  | zero =>
    intro s f2 q r h1 h2
    cases s with
    | nil => cases f2 <;> rfl
    | cons c s2 => simp at h1
  | succ f ih =>
    intro s f2 q r h1 h2
    cases s with
    | nil => cases f2 <;> rfl
    | cons c s2 =>
      cases f2 with
      | zero => simp at h2
      | succ g =>
        obtain ⟨b, k, hk, hstep⟩ := scanM_some_step (!(q || r)) c s2
        have hd1 : ((c :: s2).drop k).length ≤ f := by
          rw [List.length_drop]
          simp only [List.length_cons] at h1 ⊢
          omega
        have hd2 : ((c :: s2).drop k).length ≤ g := by
          rw [List.length_drop]
          simp only [List.length_cons] at h2 ⊢
          omega
        unfold scanLoop
        rw [hstep]
        dsimp only
        rw [ih _ g _ _ hd1 hd2]

/-- Scanning one step of a brace-free text followed by a brace-headed (or
empty) continuation consumes the same token as scanning the brace-free
text alone: no token can span the boundary, since petcat tokens start with
a left brace and keyword tokens contain none. -/
theorem scanM_some_append (tok : Bool) (c : Char) (pre2 rest : List Char)
    (hb : hasBrace (c :: pre2) = false)
    (hr : rest = [] ∨ ∃ u, rest = '{' :: u) :
    scanM (some CORE_TOKENS) tok ((c :: pre2) ++ rest) =
      (scanM (some CORE_TOKENS) tok (c :: pre2)).map
        (fun x => (x.1, x.2 ++ rest)) := by
  obtain ⟨hc1, _, _⟩ := hasBrace_cons_false hb
  unfold scanM
  rw [List.cons_append]
  rw [tryTokens_head_ne (l := pre2 ++ rest) petcat_keys_lbrace hc1]
  rw [tryTokens_head_ne (l := pre2) petcat_keys_lbrace hc1]
  cases tok with
  | false =>
    rw [if_neg (by simp), if_neg (by simp)]
    rfl
  | true =>
    rw [if_pos rfl, if_pos rfl]
    dsimp only
    rw [← List.cons_append]
    rw [tryTokens_append core_keys_no_lbrace (c :: pre2) rest hr]
    cases hcore : tryTokens CORE_TOKENS (c :: pre2) with
    | some r => rfl
    | none => rfl

/-- Splicing: scanning brace-free text followed by a brace-headed (or
empty) continuation first produces exactly the bytes of the text scanned
alone, then continues with the continuation from the updated flag state. -/
theorem scanLoop_splice (rest : List Char)
    (hr : rest = [] ∨ ∃ u, rest = '{' :: u) :
    ∀ (n : Nat) (pre : List Char), pre.length ≤ n →
      hasBrace pre = false →
      ∀ (q r : Bool) (F : Nat), (pre ++ rest).length ≤ F →
        ∃ preB q1 r1,
          scanLoop (some CORE_TOKENS) pre.length q r pre =
            .ok (preB, q1, r1) ∧
          scanLoop (some CORE_TOKENS) F q r (pre ++ rest) =
            (scanLoop (some CORE_TOKENS) rest.length q1 r1 rest).map
              (fun x => (preB ++ x.1, x.2)) := by
  intro n
  induction n with
  | zero =>
    intro pre hn hb q r F hF
    cases pre with
    | cons c pre2 => simp at hn
    | nil =>
      refine ⟨[], q, r, rfl, ?_⟩
      rw [List.nil_append] at hF ⊢
      rw [scanLoop_some_fuel F rest rest.length q r hF (le_refl _)]
      obtain ⟨bs, qf, rf, h⟩ :=
        scanLoop_some_ok rest.length rest q r (le_refl _)
      rw [h]
      rfl
  | succ n ih =>
    intro pre hn hb q r F hF
    cases pre with
    | nil =>
      refine ⟨[], q, r, rfl, ?_⟩
      rw [List.nil_append] at hF ⊢
      rw [scanLoop_some_fuel F rest rest.length q r hF (le_refl _)]
      obtain ⟨bs, qf, rf, h⟩ :=
        scanLoop_some_ok rest.length rest q r (le_refl _)
      rw [h]
      rfl
    | cons c pre2 =>
      cases F with
      | zero =>
        rw [List.cons_append] at hF
        simp at hF
      | succ F2 =>
        obtain ⟨b, k, hk, hstep⟩ := scanM_some_step (!(q || r)) c pre2
        have hstepA : scanM (some CORE_TOKENS) (!(q || r))
            ((c :: pre2) ++ rest) =
            .ok (b, (c :: pre2).drop k ++ rest) := by
          rw [scanM_some_append (!(q || r)) c pre2 rest hb hr, hstep]
          rfl
        have hremb : hasBrace ((c :: pre2).drop k) = false :=
          hasBrace_drop hb k
        have hremlen : ((c :: pre2).drop k).length ≤ n := by
          rw [List.length_drop]
          simp only [List.length_cons] at hn ⊢
          omega
        have hF2 : (((c :: pre2).drop k) ++ rest).length ≤ F2 := by
          rw [List.length_append, List.length_drop]
          rw [List.cons_append, List.length_cons, List.length_append] at hF
          simp only [List.length_cons]
          omega
        obtain ⟨preB, q1, r1, hstand, happ⟩ :=
          ih ((c :: pre2).drop k) hremlen hremb
            (xor q (b == 34)) (r || (b == 143)) F2 hF2
        refine ⟨b :: preB, q1, r1, ?_, ?_⟩
        · show scanLoop (some CORE_TOKENS) (pre2.length + 1) q r (c :: pre2) =
            .ok (b :: preB, q1, r1)
          unfold scanLoop
          rw [hstep]
          dsimp only
          rw [scanLoop_some_fuel pre2.length ((c :: pre2).drop k)
            ((c :: pre2).drop k).length _ _
            (by rw [List.length_drop]; simp only [List.length_cons]; omega)
            (le_refl _)]
          rw [hstand]
        · rw [List.cons_append] at hstepA ⊢
          obtain ⟨bs, qf, rf, hrest⟩ :=
            scanLoop_some_ok rest.length rest q1 r1 (le_refl _)
          rw [hrest] at happ ⊢
          unfold scanLoop
          rw [hstepA]
          dsimp only
          rw [happ]
          rfl

theorem ahoySplit_noPh (post : List Char) :
    hasBrace post = false → ahoySplit post = (post, []) := by
  induction post using ahoySplit.induct with
  | case1 a b rest hw ih =>
    intro hb
    exact absurd rfl (hasBrace_cons_false hb).1
  | case2 a b rest hw ih =>
    intro hb
    exact absurd rfl (hasBrace_cons_false hb).1
  | case3 c rest h ih =>
    intro hb
    obtain ⟨hc1, hc2, hb2⟩ := hasBrace_cons_false hb
    rw [ahoySplit.eq_def]
    split
    · rename_i pa pb pr heq
      injection heq with h1 h2
      exact absurd h1 hc1
    · rename_i hno heq
      injection heq with h1 h2
      subst h1
      subst h2
      dsimp only
      rw [ih hb2]
    · rename_i heq
      cases heq
  | case4 =>
    intro _
    rfl

theorem ahoySplit_concat {a b : Char} (ha : isWordChar a = true)
    (hb : isWordChar b = true) :
    ∀ (pre : List Char), hasBrace pre = false →
    ∀ (post : List Char), hasBrace post = false →
      ahoySplit (pre ++ '{' :: a :: b :: '}' :: post) =
        (pre, [(['{', a, b, '}'], post)]) := by
  intro pre
  induction pre with
  | nil =>
    intro _ post hpost
    rw [List.nil_append]
    simp only [ahoySplit, ha, hb, Bool.and_self, if_true]
    rw [ahoySplit_noPh post hpost]
  | cons c pre2 ih =>
    intro hpre post hpost
    obtain ⟨hc1, hc2, hpre2⟩ := hasBrace_cons_false hpre
    rw [List.cons_append]
    rw [ahoySplit.eq_def]
    split
    · rename_i pa pb pr heq
      injection heq with h1 h2
      exact absurd h1 hc1
    · rename_i hno heq
      injection heq with h1 h2
      subst h1
      subst h2
      dsimp only
      rw [ih hpre2 post hpost]
    · rename_i heq
      cases heq

/-- Normalizing a single line made of brace-free text around one
recognized placeholder replaces exactly the placeholder by its petcat
form. -/
theorem ahoy_line_concat_core {w1 w2 : Char} {pcode : String}
    (hw1 : isWordChar w1 = true) (hw2 : isWordChar w2 = true)
    (hlook : AHOY_TO_PETCAT.lookup (upperStr ⟨['{', w1, w2, '}']⟩) =
      some pcode)
    {pre post : List Char}
    (hpre : hasBrace pre = false) (hpost : hasBrace post = false) :
    ahoy_line ⟨pre ++ ('{' :: w1 :: w2 :: '}' :: post)⟩ =
      .ok ⟨pre ++ (pcode.data ++ post)⟩ := by
  have hsplit := ahoySplit_concat hw1 hw2 pre hpre post hpost
  unfold ahoy_line
  rw [show (⟨pre ++ ('{' :: w1 :: w2 :: '}' :: post)⟩ : String).data =
    pre ++ '{' :: w1 :: w2 :: '}' :: post from rfl]
  rw [hsplit]
  dsimp only
  have hany : ((pre :: [((['{', w1, w2, '}'] : List Char), post)].map
      Prod.snd).any hasBrace) = false := by
    simp [List.any_cons, hpre, hpost]
  rw [hany]
  simp only [Bool.false_eq_true, if_false]
  unfold ahoyParts translateCode
  rw [hlook]
  dsimp only [ahoyParts]
  rw [List.append_nil]

theorem ahoy_lines_single {l nl : String} (h : ahoy_line l = .ok nl) :
    ahoy_lines_list [l] = .ok [nl] := by
  unfold ahoy_lines_list
  rw [h]
  rfl

/-- Shape facts about the translation table keys: each key lowercases to a
single well-formed placeholder, and uppercasing that placeholder looks up
the key's petcat value again. -/
theorem ahoy_keys_facts : ∀ p ∈ AHOY_TO_PETCAT,
    (lowerStr p.1).data =
      ['{', (lowerStr p.1).data.getD 1 ' ',
        (lowerStr p.1).data.getD 2 ' ', '}'] ∧
    isWordChar ((lowerStr p.1).data.getD 1 ' ') = true ∧
    isWordChar ((lowerStr p.1).data.getD 2 ' ') = true ∧
    AHOY_TO_PETCAT.lookup (upperStr ⟨(lowerStr p.1).data⟩) = some p.2 := by
  decide

/-- C7: for every ahoy control-character mnemonic in the translation
table, normalizing a lowercased line made of the placeholder with
brace-free literal text around it, then lexing the normalized line, emits
exactly the single byte assigned to the corresponding petcat mnemonic:
the surrounding text contributes exactly the bytes it would contribute on
its own, with the mnemonic's one byte `v` in between (no flag change, as
no petcat byte is 34 or 143). -/
theorem C7_mnemonic_roundtrip (akey pcode : String) (v : Nat)
    (pre post : List Char)
    (hA : (akey, pcode) ∈ AHOY_TO_PETCAT)
    (hP : (pcode, v) ∈ PETCAT_TOKENS)
    (hpre : hasBrace pre = false) (hpost : hasBrace post = false) :
    ahoy_lines_list [⟨pre ++ ((lowerStr akey).data ++ post)⟩] =
      .ok [⟨pre ++ (pcode.data ++ post)⟩] ∧
    ∀ q r, ∃ preB q1 r1 postB qf rf,
      scanLoop (some CORE_TOKENS) pre.length q r pre = .ok (preB, q1, r1) ∧
      scanLoop (some CORE_TOKENS) post.length q1 r1 post =
        .ok (postB, qf, rf) ∧
      scanLoop (some CORE_TOKENS) (pre ++ (pcode.data ++ post)).length q r
        (pre ++ (pcode.data ++ post)) =
          .ok (preB ++ v :: postB, qf, rf) := by
  obtain ⟨hshape, hw1, hw2, hlook⟩ := ahoy_keys_facts (akey, pcode) hA
  constructor
  · rw [show (⟨pre ++ ((lowerStr akey).data ++ post)⟩ : String) =
      ⟨pre ++ ('{' :: (lowerStr akey).data.getD 1 ' ' ::
        (lowerStr akey).data.getD 2 ' ' :: '}' :: post)⟩ from by
      rw [hshape]
      rfl]
    exact ahoy_lines_single (ahoy_line_concat_core hw1 hw2
      (by rw [← hshape]; exact hlook) hpre hpost)
  · intro q r
    have hhead := petcat_keys_lbrace (pcode, v) hP
    obtain ⟨tail, htail⟩ : ∃ t, pcode.data = '{' :: t := by
      cases hd : pcode.data with
      | nil => rw [hd] at hhead; cases hhead
      | cons x xs =>
        rw [hd] at hhead
        simp only [List.head?, Option.some.injEq] at hhead
        exact ⟨xs, by rw [hhead]⟩
    have hr : (pcode.data ++ post) = [] ∨
        ∃ u, pcode.data ++ post = '{' :: u :=
      Or.inr ⟨tail ++ post, by rw [htail]; rfl⟩
    obtain ⟨preB, q1, r1, hstand, happ⟩ :=
      scanLoop_splice (pcode.data ++ post) hr pre.length pre (le_refl _)
        hpre q r ((pre ++ (pcode.data ++ post)).length) (le_refl _)
    obtain ⟨postB, qf, rf, hpost_scan⟩ :=
      scanLoop_some_ok post.length post q1 r1 (le_refl _)
    have hsafe := petcat_values_safe (pcode, v) hP
    have hv34 : (v == 34) = false := beq_eq_false_iff_ne.mpr hsafe.1
    have hv143 : (v == 143) = false := beq_eq_false_iff_ne.mpr hsafe.2
    have hM : scanM (some CORE_TOKENS) (!(q1 || r1))
        ('{' :: (tail ++ post)) = .ok (v, post) := by
      unfold scanM
      rw [show ('{' :: (tail ++ post)) = pcode.data ++ post from by
        rw [htail]; rfl]
      rw [petcat_exact hP post]
    have hrest : scanLoop (some CORE_TOKENS) (pcode.data ++ post).length
        q1 r1 (pcode.data ++ post) = .ok (v :: postB, qf, rf) := by
      rw [htail, List.cons_append, List.length_cons]
      unfold scanLoop
      rw [hM]
      dsimp only
      rw [hv34, hv143, Bool.xor_false, Bool.or_false]
      rw [scanLoop_some_fuel ((tail ++ post).length) post post.length q1 r1
        (by rw [List.length_append]; omega) (le_refl _)]
      rw [hpost_scan]
    refine ⟨preB, q1, r1, postB, qf, rf, hstand, hpost_scan, ?_⟩
    rw [happ, hrest]
    rfl

theorem C7_mnemonic_roundtrip_witness :
    (("\x7bCU\x7d", "\x7bup\x7d") ∈ AHOY_TO_PETCAT) ∧
    (("\x7bup\x7d", (145 : Nat)) ∈ PETCAT_TOKENS) ∧
    hasBrace ['a'] = false ∧ hasBrace ['b'] = false ∧
    (ahoy_lines_list [⟨['a'] ++ ((lowerStr "\x7bCU\x7d").data ++ ['b'])⟩] =
      .ok [⟨['a'] ++ (("\x7bup\x7d" : String).data ++ ['b'])⟩] ∧
    ∀ q r, ∃ preB q1 r1 postB qf rf,
      scanLoop (some CORE_TOKENS) (['a'] : List Char).length q r ['a'] =
        .ok (preB, q1, r1) ∧
      scanLoop (some CORE_TOKENS) (['b'] : List Char).length q1 r1 ['b'] =
        .ok (postB, qf, rf) ∧
      scanLoop (some CORE_TOKENS)
        ((['a'] : List Char) ++
          (("\x7bup\x7d" : String).data ++ ['b'])).length q r
        ((['a'] : List Char) ++ (("\x7bup\x7d" : String).data ++ ['b'])) =
          .ok (preB ++ 145 :: postB, qf, rf)) :=
  ⟨by decide, by decide, by decide, by decide,
    C7_mnemonic_roundtrip "\x7bCU\x7d" "\x7bup\x7d" 145 ['a'] ['b']
      (by decide) (by decide) (by decide) (by decide)⟩
